import Mathlib

/-!
# CRYPTOSTEG steganography codec: a shallow embedding

This file embeds the core of `src/static/steganography.js` (the class
`Steganography`, methods `hideData`, `extractData`, `textToBinary`,
`binaryToText`, `numberToBinary`) into Lean and proves the frozen claims
about it.

Modelling conventions:
* A JS `Uint8ClampedArray` channel buffer is a `List Nat`.  Reading out of
  range (`data[i]` with `i >= length`) yields `undefined`, which under the
  bitwise operators `& 1` / `& 0xFE` behaves as `0`; `getAt` therefore
  defaults to `0`.  Writing out of range is a no-op, which `setAt` mirrors.
* A JS string is the list of its UTF-16 code units (`List Nat`), so
  `charCodeAt`, `substring`, `indexOf`, `includes`, `startsWith` become
  list operations on code-unit lists.  All marker strings are ASCII.
* `Math.floor((data.length / 4) * 3 / 8)` is exact dyadic float arithmetic
  for any realistic length, hence equals `length * 3 / 32` in `Nat`.
* The external `CryptoJS` cipher is an opaque parameter
  `encrypt / decrypt : List Nat → List Nat → List Nat`; an empty result of
  `decrypt` models the falsy `!decrypted` failure.
-/

set_option maxRecDepth 100000

/-- JS `data[i]` read: out-of-range reads act as `0` under `& 1` / `& 0xFE`. -/
def getAt : List Nat → Nat → Nat
  | [], _ => 0
  | x :: _, 0 => x
  | _ :: xs, n + 1 => getAt xs n

/-- JS `data[i] = v` on a typed array: out-of-range writes are dropped. -/
def setAt : List Nat → Nat → Nat → List Nat
  | [], _, _ => []
  | _ :: xs, 0, v => v :: xs
  | x :: xs, n + 1, v => x :: setAt xs n v

/-- JS `parseInt(binaryString, 2)` on a list of 0/1 digits (MSB first). -/
def bitsToNat (bs : List Nat) : Nat := bs.foldl (fun a b => 2 * a + b) 0

/-- Little-endian binary digit worker: first argument is fuel (any bound on
the value), so that the recursion is structural and kernel-evaluable. -/
def natToBitsRevAux : Nat → Nat → List Nat
  | 0, _ => []
  | _ + 1, 0 => []
  | fuel + 1, n + 1 => (n + 1) % 2 :: natToBitsRevAux fuel ((n + 1) / 2)

/-- Little-endian binary digits of `n` (empty for `0`). -/
def natToBitsRev (n : Nat) : List Nat := natToBitsRevAux n n

/-- JS `n.toString(2)`: MSB-first digits, and `"0"` for zero. -/
def jsToString2 (n : Nat) : List Nat :=
  if n = 0 then [0] else (natToBitsRev n).reverse

/-- JS `numberToBinary(num, length)`: `num.toString(2).padStart(length, '0')`. -/
def numberToBinary (num len : Nat) : List Nat :=
  List.replicate (len - (jsToString2 num).length) 0 ++ jsToString2 num

/-- JS `textToBinary`: each char code as `toString(2).padStart(8, '0')`. -/
def textToBinary : List Nat → List Nat
  | [] => []
  | c :: t =>
    (List.replicate (8 - (jsToString2 c).length) 0 ++ jsToString2 c) ++ textToBinary t

/-- JS `binaryToText`: consume full 8-bit groups, `parseInt(byte, 2)` each. -/
def binaryToText : List Nat → List Nat
  | b0 :: b1 :: b2 :: b3 :: b4 :: b5 :: b6 :: b7 :: rest =>
    bitsToNat [b0, b1, b2, b3, b4, b5, b6, b7] :: binaryToText rest
  | _ => []

/-- `this.maxDataSize = Math.floor((data.length / 4) * 3 / 8)`. -/
def maxDataSize (len : Nat) : Nat := len * 3 / 32

/-- Code units of `"TXT:"`. -/
def txtTag : List Nat := [84, 88, 84, 58]

/-- Code units of `"ENC:"`. -/
def encTag : List Nat := [69, 78, 67, 58]

/-- Code units of `"<<EOF>>"`. -/
def eofMark : List Nat := [60, 60, 69, 79, 70, 62, 62]

/-- Code units of `"Partial recovery: "`. -/
def partialMark : List Nat :=
  [80, 97, 114, 116, 105, 97, 108, 32, 114, 101, 99, 111, 118, 101, 114, 121, 58, 32]

/-- `const dataIndex = 32 + i + Math.floor((32 + i) / 3)` from `hideData`. -/
def dataIndexOf (i : Nat) : Nat := 32 + i + (32 + i) / 3

/-- One iteration of the `hideData` payload loop for logical bit index `i`:
skip when the computed address is an alpha position, write the LSB when the
address is in bounds. -/
def writeOne (l : List Nat) (i b : Nat) : List Nat :=
  let a := dataIndexOf i
  if (a + 1) % 4 = 0 then l
  else if a < l.length then setAt l a ((getAt l a &&& 0xFE) ||| b) else l

/-- The `hideData` payload loop over the remaining bits, the next logical
bit index being `k`. -/
def writePayloadFrom : List Nat → List Nat → Nat → List Nat
  | l, [], _ => l
  | l, b :: bs, k => writePayloadFrom (writeOne l k b) bs (k + 1)

/-- The `hideData` header loop, bytes `i, i+1, ..., i+c-1`. -/
def writeHdrFrom : List Nat → List Nat → Nat → Nat → List Nat
  | l, _, _, 0 => l
  | l, hdr, i, c + 1 =>
    writeHdrFrom (setAt l i ((getAt l i &&& 0xFE) ||| getAt hdr i)) hdr (i + 1) c

/-- `for (let i = 0; i < 32; i++) data[i] = (data[i] & 0xFE) | headerBit[i]`. -/
def writeHeader (l hdr : List Nat) : List Nat := writeHdrFrom l hdr 0 32

/-- The only throw site of `hideData`:
`Data too large for this image. Maximum: ${maxDataSize} characters`. -/
inductive StegError
  | capacityExceeded : Nat → StegError
deriving DecidableEq, Repr

/-- The throw sites of `extractData`, in source order:
`No hidden data found or invalid data`,
`Data extraction failed: No valid data format or end marker found`,
`This data is encrypted. Please provide a password.`,
`Decryption failed: Incorrect password or corrupted data`,
`Unknown data format. Could not extract hidden text.`. -/
inductive ExtractError
  | noHiddenData
  | extractionFailed
  | passwordRequired
  | decryptFailed
  | decodeAmbiguous
deriving DecidableEq, Repr

/-- JS `hideData(image, text, password)` after the canvas boilerplate: the
capacity check, the framing `prefix + processedText + eofMark`, the
32-bit length header write and the payload-bit write loop. -/
def hideData (buf text pw : List Nat)
    (encrypt : List Nat → List Nat → List Nat) : Except StegError (List Nat) :=
  let processedText := if pw = [] then text else encrypt text pw
  let dataToHide := (if pw = [] then txtTag else encTag) ++ processedText ++ eofMark
  if dataToHide.length > maxDataSize buf.length then
    Except.error (StegError.capacityExceeded (maxDataSize buf.length))
  else
    Except.ok (writePayloadFrom
      (writeHeader buf (numberToBinary dataToHide.length 32))
      (textToBinary dataToHide) 0)

/-- `parseInt(lengthBinary, 2)` where `lengthBinary` collects `data[i] & 1`
for `i = 0 .. 31`. -/
def headerValue (buf : List Nat) : Nat :=
  bitsToNat ((List.range 32).map fun i => getAt buf i &&& 1)

/-- Physical indices visited and collected by the extraction loop: at least
32 and not an alpha position. -/
def nonAlphaIdx (len : Nat) : List Nat :=
  (List.range len).filter fun i => decide (32 ≤ i) && decide ((i + 1) % 4 ≠ 0)

/-- The bits the extraction loop has gathered when it exits: LSBs of the
first `n` in-bounds non-alpha bytes from offset 32 (the loop exits only
once `n` bits are collected; see `extractLoopState` for the literal loop). -/
def collectBits (buf : List Nat) (n : Nat) : List Nat :=
  ((nonAlphaIdx buf.length).take n).map fun i => getAt buf i &&& 1

/-- JS `s.startsWith(pat)` on code-unit lists. -/
def startsWith : List Nat → List Nat → Bool
  | _, [] => true
  | [], _ :: _ => false
  | x :: xs, p :: ps => x == p && startsWith xs ps

/-- First index `≥` the accumulator at which `pat` occurs in the haystack. -/
def findSubFrom (pat : List Nat) : List Nat → Nat → Option Nat
  | [], k => if startsWith [] pat then some k else none
  | x :: t, k => if startsWith (x :: t) pat then some k else findSubFrom pat t (k + 1)

/-- JS `hay.includes(pat)`. -/
def jsIncludes (hay pat : List Nat) : Bool := (findSubFrom pat hay 0).isSome

/-- JS `hay.indexOf(pat)` at call sites where the pattern is present. -/
def idxOf (hay pat : List Nat) : Nat := (findSubFrom pat hay 0).getD 0

/-- The encrypted-dataType branch of `extractData`: demand a
password, delegate to the external cipher, treat a falsy result as failure. -/
def decryptBranch (c pw : List Nat)
    (decrypt : List Nat → List Nat → List Nat) : Except ExtractError (List Nat) :=
  if pw = [] then Except.error ExtractError.passwordRequired
  else if decrypt c pw = [] then Except.error ExtractError.decryptFailed
  else Except.ok (decrypt c pw)

/-- `extractData` from the `cleanText` computation onward: exact-prefix tag
check, first-20-characters tag search, then the printable-residue fallback. -/
def processClean (ct pw : List Nat)
    (decrypt : List Nat → List Nat → List Nat) : Except ExtractError (List Nat) :=
  if startsWith ct encTag then decryptBranch (ct.drop 4) pw decrypt
  else if startsWith ct txtTag then Except.ok (ct.drop 4)
  else if jsIncludes (ct.take 20) encTag then
    decryptBranch (ct.drop (idxOf ct encTag + 4)) pw decrypt
  else if jsIncludes (ct.take 20) txtTag then
    Except.ok (ct.drop (idxOf ct txtTag + 4))
  else
    let possibleText := ct.filter fun c => decide (32 ≤ c) && decide (c ≤ 126)
    if possibleText.length > 10 then Except.ok (partialMark ++ possibleText)
    else Except.error ExtractError.decodeAmbiguous

/-- `extractData` from the decoded `extractedText` onward: the end-marker
check (`<<EOF>>` present, else a tag somewhere, else throw), truncation at
the first `<<EOF>>`, then `processClean`. -/
def processExtracted (et pw : List Nat)
    (decrypt : List Nat → List Nat → List Nat) : Except ExtractError (List Nat) :=
  if jsIncludes et eofMark then processClean (et.take (idxOf et eofMark)) pw decrypt
  else if jsIncludes et txtTag || jsIncludes et encTag then processClean et pw decrypt
  else Except.error ExtractError.extractionFailed

/-- JS `extractData(image, password)` after the canvas boilerplate: header
read, length validation, bit collection (in its terminating cases; the
literal loop is `extractLoopState`), decode, framing recovery. -/
def extractData (buf pw : List Nat)
    (decrypt : List Nat → List Nat → List Nat) : Except ExtractError (List Nat) :=
  let L := headerValue buf
  if L = 0 ∨ 4 * L > buf.length then Except.error ExtractError.noHiddenData
  else processExtracted (binaryToText (collectBits buf (L * 8))) pw decrypt

/-- One iteration of
`for (let i = 32; bitCount < bitsToExtract; i++) { ... }`:
state is `(i, bitCount, extractedBinary)`. -/
def extractLoopStep (buf : List Nat) : Nat × Nat × List Nat → Nat × Nat × List Nat
  | (i, bc, acc) =>
    if (i + 1) % 4 = 0 then (i + 1, bc, acc)
    else if i < buf.length then (i + 1, bc + 1, acc ++ [getAt buf i &&& 1])
    else (i + 1, bc, acc)

/-- The loop state after `n` executed iterations, starting from
`i = 32, bitCount = 0, extractedBinary = ''`.  The loop guard is
`bitCount < bitsToExtract`; iteration `n` runs only while the guard holds. -/
def extractLoopState (buf : List Nat) : Nat → Nat × Nat × List Nat
  | 0 => (32, 0, [])
  | n + 1 => extractLoopStep buf (extractLoopState buf n)

/-- Code units of `"hello"`. -/
def helloCodes : List Nat := [104, 101, 108, 108, 111]

/-- A 240-byte (60-pixel) all-zero channel buffer. -/
def buf240 : List Nat := List.replicate 240 0

/-- A placeholder external cipher (never consulted on empty-password paths). -/
def idCipher : List Nat → List Nat → List Nat := fun t _ => t

/-- The buffer produced by embedding `"hello"` with no password in `buf240`. -/
def embed240 : List Nat :=
  match hideData buf240 helloCodes [] idCipher with
  | Except.ok b => b
  | Except.error _ => []

/-- A 160-byte (40-pixel) all-zero channel buffer. -/
def buf160 : List Nat := List.replicate 160 0

/-- Code units of `"abcd"`. -/
def abcdCodes : List Nat := [97, 98, 99, 100]

/-- A 40-byte buffer whose header LSBs decode to length 1. -/
def buf40 : List Nat := List.replicate 31 0 ++ 1 :: List.replicate 8 0

/-- Number of non-alpha positions in `[32, j)`: the collection rank of a
non-alpha byte `j`. -/
def rankOf (j : Nat) : Nat :=
  ((List.range j).filter fun i => decide (32 ≤ i) && decide ((i + 1) % 4 ≠ 0)).length

/-- A 160-byte buffer whose header decodes to 12 and whose non-alpha LSBs
from offset 32 spell twelve `'A'` bytes: printable, but with no tag and no
end marker anywhere. -/
def bufC8 : List Nat :=
  (List.range 160).map fun j =>
    if j = 28 ∨ j = 29 then 1
    else if 32 ≤ j ∧ (j + 1) % 4 ≠ 0 then
      getAt (textToBinary (List.replicate 12 65)) (rankOf j)
    else 0

/-! ## Binary digit recursion lemmas -/

theorem natToBitsRevAux_congr :
    ∀ (f1 f2 n : Nat), n ≤ f1 → n ≤ f2 →
      natToBitsRevAux f1 n = natToBitsRevAux f2 n := by
  intro f1
  induction f1 with
  | zero =>
    intro f2 n h1 h2
    have hn : n = 0 := by omega
    subst hn
    cases f2 <;> rfl
  | succ g ih =>
    intro f2 n h1 h2
    cases n with
    | zero => cases f2 <;> rfl
    | succ m =>
      cases f2 with
      | zero => omega
      | succ g2 =>
        simp only [natToBitsRevAux]
        congr 1
        exact ih g2 ((m + 1) / 2) (by omega) (by omega)

theorem natToBitsRev_succ (n : Nat) (h : n ≠ 0) :
    natToBitsRev n = n % 2 :: natToBitsRev (n / 2) := by
  cases n with
  | zero => exact absurd rfl h
  | succ m =>
    rw [natToBitsRev, natToBitsRev]
    simp only [natToBitsRevAux]
    congr 1
    exact natToBitsRevAux_congr m ((m + 1) / 2) ((m + 1) / 2) (by omega) (by omega)

/-! ## Basic list access lemmas -/

theorem length_setAt (l : List Nat) (i v : Nat) : (setAt l i v).length = l.length := by
  induction l generalizing i with
  | nil => rfl
  | cons x xs ih =>
    cases i with
    | zero => rfl
    | succ n => simpa [setAt] using ih n

theorem getAt_setAt_self (l : List Nat) (i v : Nat) (h : i < l.length) :
    getAt (setAt l i v) i = v := by
  induction l generalizing i with
  | nil => simp at h
  | cons x xs ih =>
    cases i with
    | zero => rfl
    | succ n => simpa [setAt, getAt] using ih n (by simpa using h)

theorem getAt_setAt_ne (l : List Nat) (i j v : Nat) (h : i ≠ j) :
    getAt (setAt l i v) j = getAt l j := by
  induction l generalizing i j with
  | nil => rfl
  | cons x xs ih =>
    cases i with
    | zero => cases j with
      | zero => exact absurd rfl h
      | succ m => rfl
    | succ n => cases j with
      | zero => rfl
      | succ m => simpa [setAt, getAt] using ih n m (by omega)

theorem getAt_cons_succ (x : Nat) (xs : List Nat) (n : Nat) :
    getAt (x :: xs) (n + 1) = getAt xs n := rfl

/-! ## Bit-level mask lemmas -/

theorem and_FE_and_one (x : Nat) : (x &&& 0xFE) &&& 1 = 0 := by
  rw [Nat.and_one_is_mod]
  have h : (x &&& 254) % 2 = 1 ↔ x % 2 = 1 ∧ (254 : Nat) % 2 = 1 :=
    Nat.and_mod_two_eq_one
  omega

theorem lsb_after_write (x b : Nat) (hb : b ≤ 1) :
    ((x &&& 0xFE) ||| b) &&& 1 = b := by
  rcases Nat.le_one_iff_eq_zero_or_eq_one.mp hb with rfl | rfl
  · rw [Nat.or_zero]; exact and_FE_and_one x
  · rw [Nat.and_one_is_mod]
    have h : (x &&& 254 ||| 1) % 2 = 1 ↔ (x &&& 254) % 2 = 1 ∨ (1 : Nat) % 2 = 1 :=
      Nat.or_mod_two_eq_one
    omega

theorem high_bits_after_write (x b : Nat) (hb : b ≤ 1) :
    ((x &&& 0xFE) ||| b) &&& 0xFE = x &&& 0xFE := by
  apply Nat.eq_of_testBit_eq
  intro i
  rcases Nat.le_one_iff_eq_zero_or_eq_one.mp hb with rfl | rfl
  · simp [Nat.testBit_and, Nat.testBit_or, Bool.and_assoc]
  · cases i with
    | zero => simp [Nat.testBit_and, Nat.testBit_or]
    | succ j =>
      have h1 : (1 : Nat).testBit (j + 1) = false := by
        rw [Nat.testBit_succ]; simp [Nat.zero_testBit]
      simp [Nat.testBit_and, Nat.testBit_or, h1, Bool.and_assoc]

/-! ## Binary digit conversion lemmas -/

theorem bitsToNat_append_singleton (xs : List Nat) (b : Nat) :
    bitsToNat (xs ++ [b]) = 2 * bitsToNat xs + b := by
  simp [bitsToNat, List.foldl_append]

theorem bitsToNat_replicate_zero_append (k : Nat) (s : List Nat) :
    bitsToNat (List.replicate k 0 ++ s) = bitsToNat s := by
  induction k with
  | zero => rfl
  | succ n ih =>
    have h : List.replicate (n + 1) 0 ++ s = 0 :: (List.replicate n 0 ++ s) := by
      simp [List.replicate_succ]
    rw [h]
    simpa [bitsToNat, List.foldl_cons] using ih

theorem bitsToNat_natToBitsRev (n : Nat) :
    bitsToNat (natToBitsRev n).reverse = n := by
  induction n using Nat.strong_induction_on with
  | _ n ih =>
    by_cases h : n = 0
    · subst h; rfl
    · rw [natToBitsRev_succ n h]
      have hlt : n / 2 < n := Nat.div_lt_self (Nat.pos_of_ne_zero h) (by decide)
      rw [List.reverse_cons, bitsToNat_append_singleton, ih (n / 2) hlt]
      omega

theorem bitsToNat_jsToString2 (n : Nat) : bitsToNat (jsToString2 n) = n := by
  by_cases h : n = 0
  · subst h; rfl
  · rw [jsToString2, if_neg h]; exact bitsToNat_natToBitsRev n

theorem bitsToNat_numberToBinary (num len : Nat) :
    bitsToNat (numberToBinary num len) = num := by
  rw [numberToBinary, bitsToNat_replicate_zero_append, bitsToNat_jsToString2]

theorem natToBitsRev_digits_le_one (n : Nat) :
    ∀ b ∈ natToBitsRev n, b ≤ 1 := by
  induction n using Nat.strong_induction_on with
  | _ n ih =>
    intro b hb
    by_cases h : n = 0
    · subst h; simp [natToBitsRev, natToBitsRevAux] at hb
    · rw [natToBitsRev_succ n h] at hb
      rcases List.mem_cons.mp hb with rfl | hmem
      · omega
      · exact ih (n / 2) (Nat.div_lt_self (Nat.pos_of_ne_zero h) (by decide)) b hmem

theorem numberToBinary_digits_le_one (num len : Nat) :
    ∀ b ∈ numberToBinary num len, b ≤ 1 := by
  intro b hb
  rw [numberToBinary] at hb
  rcases List.mem_append.mp hb with hmem | hmem
  · have := List.eq_of_mem_replicate hmem; omega
  · rw [jsToString2] at hmem
    split at hmem
    · simp at hmem; omega
    · exact natToBitsRev_digits_le_one num b (List.mem_reverse.mp hmem)

theorem getAt_le_one_of_forall (l : List Nat) (h : ∀ b ∈ l, b ≤ 1) (i : Nat) :
    getAt l i ≤ 1 := by
  induction l generalizing i with
  | nil => simp [getAt]
  | cons x xs ih =>
    cases i with
    | zero => exact h x (List.mem_cons_self x xs)
    | succ n => exact ih (fun b hb => h b (List.mem_cons_of_mem x hb)) n

theorem natToBitsRev_length_le (n k : Nat) (h : n < 2 ^ k) :
    (natToBitsRev n).length ≤ k := by
  induction k generalizing n with
  | zero =>
    have : n = 0 := by omega
    subst this; simp [natToBitsRev, natToBitsRevAux]
  | succ m ih =>
    by_cases h0 : n = 0
    · subst h0; simp [natToBitsRev, natToBitsRevAux]
    · rw [natToBitsRev_succ n h0]
      have : n / 2 < 2 ^ m := by
        rw [Nat.pow_succ] at h; omega
      simpa using ih (n / 2) this

theorem numberToBinary_length (num len : Nat) (h : num < 2 ^ len) (hpos : 0 < len) :
    (numberToBinary num len).length = len := by
  rw [numberToBinary]
  have hle : (jsToString2 num).length ≤ len := by
    rw [jsToString2]
    split
    · simpa using hpos
    · simpa using natToBitsRev_length_le num len h
  simp [List.length_replicate]
  omega

/-! ## Header write lemmas -/

theorem length_writeHdrFrom (hdr : List Nat) :
    ∀ (c : Nat) (l : List Nat) (i : Nat), (writeHdrFrom l hdr i c).length = l.length := by
  intro c
  induction c with
  | zero => intro l i; rfl
  | succ n ih =>
    intro l i
    rw [writeHdrFrom, ih, length_setAt]

theorem getAt_writeHdrFrom_outside (hdr : List Nat) :
    ∀ (c : Nat) (l : List Nat) (i j : Nat), (j < i ∨ i + c ≤ j) →
      getAt (writeHdrFrom l hdr i c) j = getAt l j := by
  intro c
  induction c with
  | zero => intro l i j _; rfl
  | succ n ih =>
    intro l i j hj
    rw [writeHdrFrom, ih _ _ _ (by omega), getAt_setAt_ne _ _ _ _ (by omega)]

theorem getAt_writeHdrFrom_inside (hdr : List Nat) :
    ∀ (c : Nat) (l : List Nat) (i j : Nat), i ≤ j → j < i + c → j < l.length →
      getAt (writeHdrFrom l hdr i c) j = (getAt l j &&& 0xFE) ||| getAt hdr j := by
  intro c
  induction c with
  | zero => intro l i j h1 h2 _; omega
  | succ n ih =>
    intro l i j h1 h2 hlen
    rw [writeHdrFrom]
    by_cases hij : j = i
    · subst hij
      rw [getAt_writeHdrFrom_outside _ _ _ _ _ (by omega),
        getAt_setAt_self _ _ _ hlen]
    · rw [ih _ _ _ (by omega) (by omega) (by rw [length_setAt]; exact hlen),
        getAt_setAt_ne _ _ _ _ (by omega)]

theorem length_writeHeader (l hdr : List Nat) :
    (writeHeader l hdr).length = l.length := length_writeHdrFrom hdr 32 l 0

theorem getAt_writeHeader_ge (l hdr : List Nat) (j : Nat) (h : 32 ≤ j) :
    getAt (writeHeader l hdr) j = getAt l j :=
  getAt_writeHdrFrom_outside hdr 32 l 0 j (Or.inr h)

theorem getAt_writeHeader_lt (l hdr : List Nat) (j : Nat) (h : j < 32)
    (hlen : j < l.length) :
    getAt (writeHeader l hdr) j = (getAt l j &&& 0xFE) ||| getAt hdr j :=
  getAt_writeHdrFrom_inside hdr 32 l 0 j (Nat.zero_le j) (by omega) hlen

/-! ## Payload address lemmas -/

theorem dataIndexOf_lt_succ (i : Nat) : dataIndexOf i < dataIndexOf (i + 1) := by
  have h : (32 + i) / 3 ≤ (32 + (i + 1)) / 3 :=
    Nat.div_le_div_right (by omega)
  rw [dataIndexOf, dataIndexOf]
  omega

theorem dataIndexOf_strictMono : StrictMono dataIndexOf :=
  strictMono_nat_of_lt_succ dataIndexOf_lt_succ

theorem dataIndexOf_ge (i : Nat) : 42 ≤ dataIndexOf i := by
  have h : (32 : Nat) / 3 ≤ (32 + i) / 3 := Nat.div_le_div_right (by omega)
  rw [dataIndexOf]
  omega

/-- The alpha-skip test inside the payload loop never fires: the computed
address is never an alpha position. -/
theorem dataIndexOf_succ_mod (i : Nat) : (dataIndexOf i + 1) % 4 ≠ 0 := by
  have hdm := Nat.div_add_mod (32 + i) 3
  have hr : (32 + i) % 3 < 3 := Nat.mod_lt _ (by omega)
  rw [dataIndexOf]
  omega

/-! ## Payload write lemmas -/

theorem writeOne_eq (l : List Nat) (k b : Nat) :
    writeOne l k b =
      if dataIndexOf k < l.length then
        setAt l (dataIndexOf k) ((getAt l (dataIndexOf k) &&& 0xFE) ||| b)
      else l := by
  rw [writeOne]
  simp [dataIndexOf_succ_mod k]

theorem length_writeOne (l : List Nat) (k b : Nat) :
    (writeOne l k b).length = l.length := by
  rw [writeOne_eq]
  split
  · exact length_setAt l _ _
  · rfl

theorem getAt_writeOne_ne (l : List Nat) (k b j : Nat) (h : dataIndexOf k ≠ j) :
    getAt (writeOne l k b) j = getAt l j := by
  rw [writeOne_eq]
  split
  · exact getAt_setAt_ne l _ j _ h
  · rfl

theorem length_writePayloadFrom :
    ∀ (bits : List Nat) (l : List Nat) (k : Nat),
      (writePayloadFrom l bits k).length = l.length := by
  intro bits
  induction bits with
  | nil => intro l k; rfl
  | cons b bs ih =>
    intro l k
    rw [writePayloadFrom, ih, length_writeOne]

theorem getAt_writePayloadFrom_untouched :
    ∀ (bits : List Nat) (l : List Nat) (k j : Nat),
      (∀ d, d < bits.length → dataIndexOf (k + d) ≠ j) →
      getAt (writePayloadFrom l bits k) j = getAt l j := by
  intro bits
  induction bits with
  | nil => intro l k j _; rfl
  | cons b bs ih =>
    intro l k j h
    rw [writePayloadFrom, ih _ _ _ (fun d hd => by
        have h2 := h (d + 1) (by simpa using Nat.succ_lt_succ hd)
        have he : k + (d + 1) = k + 1 + d := by omega
        rw [he] at h2
        exact h2),
      getAt_writeOne_ne _ _ _ _ (by simpa using h 0 (by simp))]

theorem getAt_writePayloadFrom_at :
    ∀ (bits : List Nat) (l : List Nat) (k d : Nat), d < bits.length →
      getAt (writePayloadFrom l bits k) (dataIndexOf (k + d)) =
        if dataIndexOf (k + d) < l.length then
          (getAt l (dataIndexOf (k + d)) &&& 0xFE) ||| getAt bits d
        else getAt l (dataIndexOf (k + d)) := by
  intro bits
  induction bits with
  | nil => intro l k d hd; simp at hd
  | cons b bs ih =>
    intro l k d hd
    cases d with
    | zero =>
      rw [Nat.add_zero, writePayloadFrom,
        getAt_writePayloadFrom_untouched bs _ (k + 1) _ (fun d _ => by
          have := dataIndexOf_strictMono (show k < k + 1 + d by omega)
          omega),
        writeOne_eq]
      split
      · rw [getAt_setAt_self _ _ _ (by assumption)]
        rfl
      · rfl
    | succ e =>
      have hke : k + (e + 1) = (k + 1) + e := by omega
      rw [writePayloadFrom, hke, ih _ (k + 1) e (by simpa using Nat.lt_of_succ_lt_succ hd)]
      have hne : dataIndexOf k ≠ dataIndexOf (k + 1 + e) := by
        have := dataIndexOf_strictMono (show k < k + 1 + e by omega)
        omega
      rw [getAt_writeOne_ne _ _ _ _ hne, length_writeOne]
      rfl

/-! ## Substring search lemmas -/

theorem startsWith_nil (s : List Nat) : startsWith s [] = true := by
  cases s <;> rfl

theorem startsWith_append (pat t : List Nat) : startsWith (pat ++ t) pat = true := by
  induction pat with
  | nil => exact startsWith_nil t
  | cons p ps ih => simp [startsWith, ih]

theorem startsWith_take (s pat : List Nat) (n : Nat) (h : startsWith s pat = true)
    (hn : pat.length ≤ n) : startsWith (s.take n) pat = true := by
  induction pat generalizing s n with
  | nil => exact startsWith_nil _
  | cons p ps ih =>
    cases s with
    | nil => simp [startsWith] at h
    | cons x xs =>
      cases n with
      | zero => simp at hn
      | succ m =>
        rw [startsWith] at h
        rcases Bool.and_eq_true_iff.mp h with ⟨hxp, hrest⟩
        rw [List.take_succ_cons, startsWith, hxp]
        simpa using ih xs m hrest (by simpa using hn)

theorem findSubFrom_sound (pat : List Nat) :
    ∀ (hay : List Nat) (k i : Nat), findSubFrom pat hay k = some i →
      k ≤ i ∧ startsWith (hay.drop (i - k)) pat = true := by
  intro hay
  induction hay with
  | nil =>
    intro k i h
    rw [findSubFrom] at h
    split at h
    · rename_i hsw
      injection h with h2
      subst h2
      exact ⟨Nat.le_refl _, by simpa using hsw⟩
    · exact absurd h (by simp)
  | cons x t ih =>
    intro k i h
    rw [findSubFrom] at h
    split at h
    · rename_i hsw
      injection h with h2
      subst h2
      exact ⟨Nat.le_refl _, by simpa using hsw⟩
    · obtain ⟨hk, hsw⟩ := ih (k + 1) i h
      refine ⟨by omega, ?_⟩
      have hd : (x :: t).drop (i - k) = t.drop (i - (k + 1)) := by
        have : i - k = (i - (k + 1)) + 1 := by omega
        rw [this, List.drop_succ_cons]
      rw [hd]
      exact hsw

theorem findSubFrom_isSome (pat : List Nat) :
    ∀ (hay : List Nat) (k d : Nat), startsWith (hay.drop d) pat = true →
      (findSubFrom pat hay k).isSome = true := by
  intro hay
  induction hay with
  | nil =>
    intro k d h
    rw [List.drop_nil] at h
    rw [findSubFrom, if_pos h]
    rfl
  | cons x t ih =>
    intro k d h
    rw [findSubFrom]
    split
    · rfl
    · cases d with
      | zero => rename_i hsw; exact absurd h (by simpa using hsw)
      | succ e => exact ih (k + 1) e (by simpa using h)

theorem jsIncludes_take_of_found (ct pat : List Nat) (idx n : Nat)
    (h : startsWith (ct.drop idx) pat = true) (hn : idx + pat.length ≤ n) :
    jsIncludes (ct.take n) pat = true := by
  have hdt : (ct.take n).drop idx = (ct.drop idx).take (n - idx) :=
    List.drop_take n idx ct
  have hsw : startsWith ((ct.take n).drop idx) pat = true := by
    rw [hdt]
    exact startsWith_take _ _ _ h (by omega)
  exact findSubFrom_isSome pat (ct.take n) 0 idx hsw

/-! ## hideData unfolding helpers -/

/-- The framed container `prefix + processedText + eofMark` built by
`hideData`. -/
def dataToHideOf (text pw : List Nat)
    (encrypt : List Nat → List Nat → List Nat) : List Nat :=
  (if pw = [] then txtTag else encTag) ++
    (if pw = [] then text else encrypt text pw) ++ eofMark

theorem hideData_def (buf text pw : List Nat) (e : List Nat → List Nat → List Nat) :
    hideData buf text pw e =
      if (dataToHideOf text pw e).length > maxDataSize buf.length then
        Except.error (StegError.capacityExceeded (maxDataSize buf.length))
      else
        Except.ok (writePayloadFrom
          (writeHeader buf (numberToBinary (dataToHideOf text pw e).length 32))
          (textToBinary (dataToHideOf text pw e)) 0) := rfl

theorem length_dataToHideOf_ge (text pw : List Nat)
    (e : List Nat → List Nat → List Nat) : 11 ≤ (dataToHideOf text pw e).length := by
  rw [dataToHideOf]
  split <;> simp [txtTag, encTag, eofMark]

theorem hideData_ok_inv (buf text pw : List Nat) (e : List Nat → List Nat → List Nat)
    (out : List Nat) (h : hideData buf text pw e = Except.ok out) :
    (dataToHideOf text pw e).length ≤ maxDataSize buf.length ∧
      out = writePayloadFrom
        (writeHeader buf (numberToBinary (dataToHideOf text pw e).length 32))
        (textToBinary (dataToHideOf text pw e)) 0 := by
  rw [hideData_def] at h
  split at h
  · exact absurd h (by simp)
  · rename_i hc
    refine ⟨by omega, ?_⟩
    injection h with h2
    exact h2.symm

theorem buf_length_ge_of_cap (lenb n : Nat) (h11 : 11 ≤ n)
    (hcap : n ≤ maxDataSize lenb) : 118 ≤ lenb := by
  rw [maxDataSize] at hcap
  have h : 11 ≤ lenb * 3 / 32 := by omega
  have h2 : 11 * 32 ≤ lenb * 3 := (Nat.le_div_iff_mul_le (by omega)).mp h
  omega

theorem textToBinary_digits_le_one (t : List Nat) :
    ∀ b ∈ textToBinary t, b ≤ 1 := by
  induction t with
  | nil => intro b hb; simp [textToBinary] at hb
  | cons c rest ih =>
    intro b hb
    rw [textToBinary] at hb
    rcases List.mem_append.mp hb with hm | hm
    · rcases List.mem_append.mp hm with hm2 | hm2
      · have := List.eq_of_mem_replicate hm2; omega
      · rw [jsToString2] at hm2
        split at hm2
        · simp at hm2; omega
        · exact natToBitsRev_digits_le_one c b (List.mem_reverse.mp hm2)
    · exact ih b hm

/-! ## Mask preservation across the embedding stages -/

theorem setAt_oob (l : List Nat) (i v : Nat) (h : l.length ≤ i) : setAt l i v = l := by
  induction l generalizing i with
  | nil => rfl
  | cons x xs ih =>
    cases i with
    | zero => simp at h
    | succ n => simpa [setAt] using ih n (by simpa using h)

theorem mask_setAt_write (l : List Nat) (i b : Nat) (hb : b ≤ 1) (j : Nat) :
    getAt (setAt l i ((getAt l i &&& 0xFE) ||| b)) j &&& 0xFE = getAt l j &&& 0xFE := by
  by_cases hij : i = j
  · subst hij
    by_cases hlen : i < l.length
    · rw [getAt_setAt_self _ _ _ hlen, high_bits_after_write _ _ hb]
    · rw [setAt_oob _ _ _ (by omega)]
  · rw [getAt_setAt_ne _ _ _ _ hij]

theorem mask_writeOne (l : List Nat) (k b : Nat) (hb : b ≤ 1) (j : Nat) :
    getAt (writeOne l k b) j &&& 0xFE = getAt l j &&& 0xFE := by
  rw [writeOne_eq]
  split
  · exact mask_setAt_write l _ b hb j
  · rfl

theorem mask_writePayloadFrom :
    ∀ (bits : List Nat), (∀ b ∈ bits, b ≤ 1) → ∀ (l : List Nat) (k j : Nat),
      getAt (writePayloadFrom l bits k) j &&& 0xFE = getAt l j &&& 0xFE := by
  intro bits
  induction bits with
  | nil => intro _ l k j; rfl
  | cons b bs ih =>
    intro hle l k j
    rw [writePayloadFrom,
      ih (fun x hx => hle x (List.mem_cons_of_mem b hx)) _ (k + 1) j,
      mask_writeOne _ _ _ (hle b (List.mem_cons_self b bs)) j]

theorem mask_writeHdrFrom (hdr : List Nat) (hh : ∀ b ∈ hdr, b ≤ 1) :
    ∀ (c : Nat) (l : List Nat) (i j : Nat),
      getAt (writeHdrFrom l hdr i c) j &&& 0xFE = getAt l j &&& 0xFE := by
  intro c
  induction c with
  | zero => intro l i j; rfl
  | succ n ih =>
    intro l i j
    rw [writeHdrFrom, ih _ _ j,
      mask_setAt_write l i _ (getAt_le_one_of_forall hdr hh i) j]

/-! ## Header readback -/

theorem range_map_getAt (l : List Nat) :
    (List.range l.length).map (fun i => getAt l i) = l := by
  induction l with
  | nil => rfl
  | cons x xs ih =>
    rw [List.length_cons, List.range_succ_eq_map, List.map_cons, List.map_map]
    have hcomp : ((fun i => getAt (x :: xs) i) ∘ Nat.succ) = fun i => getAt xs i := by
      funext i
      rfl
    rw [hcomp, ih]
    rfl

/-! ## Extraction-side helpers -/

/-- The `cleanText` of `extractData`: truncate at the first `<<EOF>>` when
present, otherwise keep the whole decoded text. -/
def cleanTextOf (et : List Nat) : List Nat :=
  if jsIncludes et eofMark then et.take (idxOf et eofMark) else et

theorem processExtracted_eq (et pw : List Nat) (d : List Nat → List Nat → List Nat) :
    processExtracted et pw d =
      if jsIncludes et eofMark || jsIncludes et txtTag || jsIncludes et encTag then
        processClean (cleanTextOf et) pw d
      else Except.error ExtractError.extractionFailed := by
  rw [processExtracted, cleanTextOf]
  by_cases h1 : jsIncludes et eofMark = true
  · simp [h1]
  · simp only [Bool.not_eq_true] at h1
    simp [h1]

theorem decryptBranch_ne_noHiddenData (c pw : List Nat)
    (d : List Nat → List Nat → List Nat) :
    decryptBranch c pw d ≠ Except.error ExtractError.noHiddenData := by
  rw [decryptBranch]
  split
  · simp
  · split <;> simp

theorem processClean_ne_noHiddenData (ct pw : List Nat)
    (d : List Nat → List Nat → List Nat) :
    processClean ct pw d ≠ Except.error ExtractError.noHiddenData := by
  rw [processClean]
  split
  · exact decryptBranch_ne_noHiddenData _ _ _
  · split
    · simp
    · split
      · exact decryptBranch_ne_noHiddenData _ _ _
      · split
        · simp
        · simp only []
          split <;> simp

theorem processExtracted_ne_noHiddenData (et pw : List Nat)
    (d : List Nat → List Nat → List Nat) :
    processExtracted et pw d ≠ Except.error ExtractError.noHiddenData := by
  rw [processExtracted_eq]
  split
  · exact processClean_ne_noHiddenData _ _ _
  · simp

/-! ## Embedded-buffer access lemmas -/

theorem getAt_embedded_lt32 (buf hdr bits : List Nat) (j : Nat) (hj : j < 32)
    (hlen : j < buf.length) :
    getAt (writePayloadFrom (writeHeader buf hdr) bits 0) j =
      (getAt buf j &&& 0xFE) ||| getAt hdr j := by
  rw [getAt_writePayloadFrom_untouched bits _ 0 j (fun d _ => by
      have := dataIndexOf_ge (0 + d)
      omega),
    getAt_writeHeader_lt buf hdr j hj hlen]

theorem getAt_embedded_untouched (buf hdr bits : List Nat) (j : Nat) (hj : 32 ≤ j)
    (hun : ∀ d, d < bits.length → dataIndexOf d ≠ j) :
    getAt (writePayloadFrom (writeHeader buf hdr) bits 0) j = getAt buf j := by
  rw [getAt_writePayloadFrom_untouched bits _ 0 j (fun d hd => by
      rw [Nat.zero_add]
      exact hun d hd),
    getAt_writeHeader_ge buf hdr j hj]

theorem headerValue_embedded (buf hdr bits : List Nat) (hbuf : 32 ≤ buf.length)
    (hhdr : ∀ b ∈ hdr, b ≤ 1) :
    headerValue (writePayloadFrom (writeHeader buf hdr) bits 0) =
      bitsToNat ((List.range 32).map fun j => getAt hdr j) := by
  rw [headerValue]
  congr 1
  apply List.map_congr_left
  intro j hj
  have hj32 : j < 32 := List.mem_range.mp hj
  rw [getAt_embedded_lt32 buf hdr bits j hj32 (by omega),
    lsb_after_write _ _ (getAt_le_one_of_forall hdr hhdr j)]

/-- Decidable equality for `Except` results, used to evaluate the codec at
concrete inputs. -/
instance {e a : Type} [DecidableEq e] [DecidableEq a] : DecidableEq (Except e a) := fun x y =>
  match x, y with
  | Except.ok u, Except.ok v =>
    match decEq u v with
    | isTrue h => isTrue (by rw [h])
    | isFalse h => isFalse (fun hh => h (Except.ok.inj hh))
  | Except.error u, Except.error v =>
    match decEq u v with
    | isTrue h => isTrue (by rw [h])
    | isFalse h => isFalse (fun hh => h (Except.error.inj hh))
  | Except.ok _, Except.error _ => isFalse (fun hh => Except.noConfusion hh)
  | Except.error _, Except.ok _ => isFalse (fun hh => Except.noConfusion hh)

/-! ## Claim theorems -/

/-- C1 (code bug: the round-trip claim fails on the code).  Embedding
`"hello"` with no password into a 240-byte all-zero buffer and extracting
it back yields `"hello<<EOF>"` — one stale pre-tag byte is absorbed during
tag recovery and the final `>` of the end marker is lost — rather than
`"hello"` as the round-trip property demands.  The cause: `hideData`
writes payload bit `i` at `32 + i + floor((32 + i) / 3)` (starting at
byte 42), while `extractData` collects from every non-alpha byte starting
at byte 32, so the two address streams are misaligned by one decoded
byte. -/
theorem c1_roundtrip_failure :
    hideData buf240 helloCodes [] idCipher = Except.ok embed240 ∧
    extractData embed240 [] idCipher =
      Except.ok (helloCodes ++ [60, 60, 69, 79, 70, 62]) ∧
    helloCodes ++ [60, 60, 69, 79, 70, 62] ≠ helloCodes := by
  refine ⟨by decide, by decide, by decide⟩

/-- C2 (counterexample).  The claim predicts `CapacityExceeded` exactly
when the framed length exceeds `capacity - 4` (the 32-bit header
overhead).  On a 160-byte buffer the capacity is 15 and the framed length
of `"abcd"` is 15 > 15 - 4 = 11, yet `hideData` succeeds: the code
compares against `maxDataSize` itself with no header deduction. -/
theorem c2_counterexample :
    maxDataSize buf160.length - 4 < (dataToHideOf abcdCodes [] idCipher).length ∧
    (hideData buf160 abcdCodes [] idCipher).toOption.isSome = true := by
  refine ⟨by decide, rfl⟩

/-- C2 (amended): `hideData` fails with `CapacityExceeded` carrying
`maxDataSize buf.length = floor((buf.length / 4) * 3 / 8)` exactly when
the framed container is strictly longer than that capacity, and succeeds
when the framed length equals the capacity exactly; no 32-bit header
overhead is subtracted. -/
theorem c2_amended_capacity (buf text pw : List Nat)
    (e : List Nat → List Nat → List Nat) :
    (hideData buf text pw e =
        Except.error (StegError.capacityExceeded (maxDataSize buf.length)) ↔
      maxDataSize buf.length < (dataToHideOf text pw e).length) ∧
    ((dataToHideOf text pw e).length = maxDataSize buf.length →
      (hideData buf text pw e).toOption.isSome = true) := by
  rw [hideData_def]
  constructor
  · by_cases hc : maxDataSize buf.length < (dataToHideOf text pw e).length
    · rw [if_pos hc]
      simp [hc]
    · rw [if_neg hc]
      simp [hc]
  · intro heq
    rw [if_neg (by omega)]
    rfl

/-- C2 witness: at the exact capacity boundary (framed length 15 equals
the capacity of a 160-byte buffer), `hideData` succeeds. -/
theorem c2_amended_capacity_witness :
    (hideData buf160 abcdCodes [] idCipher).toOption.isSome = true :=
  (c2_amended_capacity buf160 abcdCodes [] idCipher).2 (by decide)

/-- After 8 iterations on `buf40` the extraction loop has consumed every
in-bounds byte (positions 32-39, six of them non-alpha) and from then on
each iteration only advances `i`: `bitCount` is stuck at 6. -/
theorem buf40_loop_stall (k : Nat) :
    extractLoopState buf40 (8 + k) = (40 + k, 6, [0, 0, 0, 0, 0, 0]) := by
  induction k with
  | zero => rfl
  | succ m ih =>
    have hstep : extractLoopState buf40 (8 + (m + 1)) =
        extractLoopStep buf40 (extractLoopState buf40 (8 + m)) := rfl
    rw [hstep, ih]
    simp only [extractLoopStep]
    have hlen : buf40.length = 40 := by decide
    by_cases h4 : (40 + m + 1) % 4 = 0
    · rw [if_pos h4]
      rfl
    · rw [if_neg h4, if_neg (show ¬(40 + m < buf40.length) by rw [hlen]; omega)]
      rfl

/-- C3 (code bug: the bit-collection loop does not terminate on short
buffers).  On the 40-byte buffer `buf40` the header decodes to `L = 1`,
which passes the length validation (`0 < 1` and `4 * 1 <= 40`), yet the
loop guard `bitCount < L * 8` stays true after every number of iterations:
only six non-alpha in-bounds bytes exist past offset 32, the loop has no
buffer-exhaustion exit, and so it never collects the required 8 bits and
never terminates, contradicting the claimed termination. -/
theorem c3_collect_loop_diverges :
    headerValue buf40 = 1 ∧
    ¬(headerValue buf40 = 0 ∨ 4 * headerValue buf40 > buf40.length) ∧
    ∀ n : Nat, (extractLoopState buf40 n).2.1 < headerValue buf40 * 8 := by
  refine ⟨by decide, by decide, ?_⟩
  intro n
  have hL : headerValue buf40 = 1 := by decide
  rw [hL]
  by_cases hn : n < 8
  · interval_cases n <;> decide
  · obtain ⟨k, rfl⟩ : ∃ k, n = 8 + k := ⟨n - 8, by omega⟩
    rw [buf40_loop_stall k]
    show (6 : Nat) < 1 * 8
    decide

/-- C4 (confirmed).  During a successful embed: (1) payload bit `i` of the
framed container lands at `dataIndexOf i = 32 + i + (32 + i) / 3` — when
that address is non-alpha and in bounds — as the LSB of the addressed
byte; (2) a loop iteration whose computed address is an alpha position
`((a + 1) % 4 = 0)` writes nothing at all; (3) every byte of the output
keeps bits 1-7 of the corresponding input byte. -/
theorem c4_payload_addressing (buf text pw : List Nat)
    (e : List Nat → List Nat → List Nat) (out : List Nat)
    (h : hideData buf text pw e = Except.ok out) :
    (∀ i, i < (textToBinary (dataToHideOf text pw e)).length →
      (dataIndexOf i + 1) % 4 ≠ 0 → dataIndexOf i < buf.length →
      getAt out (dataIndexOf i) =
        (getAt buf (dataIndexOf i) &&& 0xFE) |||
          getAt (textToBinary (dataToHideOf text pw e)) i) ∧
    (∀ (l : List Nat) (i b : Nat), (dataIndexOf i + 1) % 4 = 0 →
      writeOne l i b = l) ∧
    (∀ j, getAt out j &&& 0xFE = getAt buf j &&& 0xFE) := by
  obtain ⟨hcap, hout⟩ := hideData_ok_inv buf text pw e out h
  subst hout
  refine ⟨?_, ?_, ?_⟩
  · intro i hi hmod hlt
    have hmain := getAt_writePayloadFrom_at
      (textToBinary (dataToHideOf text pw e))
      (writeHeader buf (numberToBinary (dataToHideOf text pw e).length 32)) 0 i hi
    rw [Nat.zero_add] at hmain
    rw [length_writeHeader] at hmain
    rw [if_pos hlt] at hmain
    rw [hmain,
      getAt_writeHeader_ge _ _ _ (by have := dataIndexOf_ge i; omega)]
  · intro l i b hmod
    rw [writeOne]
    simp [hmod]
  · intro j
    rw [mask_writePayloadFrom _ (textToBinary_digits_le_one _) _ 0 j]
    exact mask_writeHdrFrom _ (numberToBinary_digits_le_one _ 32) 32 buf 0 j

/-- C4 witness: in the concrete embed of `"hello"` into `buf240`, payload
bit 0 is written at byte `dataIndexOf 0 = 42` as the LSB over the
original byte. -/
theorem c4_payload_addressing_witness :
    getAt embed240 (dataIndexOf 0) =
      (getAt buf240 (dataIndexOf 0) &&& 0xFE) |||
        getAt (textToBinary (dataToHideOf helloCodes [] idCipher)) 0 :=
  (c4_payload_addressing buf240 helloCodes [] idCipher embed240 rfl).1 0
    (by decide) (by decide) (by decide)

/-- C5 (confirmed).  A successful embed writes the 32-bit big-endian
container length into the LSBs of physical bytes 0-31 with no alpha
skipping, preserves bits 1-7 of those bytes, and the header value that
`extractData` reconstructs from bit 0 of bytes 0-31 of the embedded
buffer equals the framed container length (whenever that length fits in
32 bits). -/
theorem c5_header_fidelity (buf text pw : List Nat)
    (e : List Nat → List Nat → List Nat) (out : List Nat)
    (h : hideData buf text pw e = Except.ok out)
    (hsize : (dataToHideOf text pw e).length < 2 ^ 32) :
    (∀ j, j < 32 → getAt out j = (getAt buf j &&& 0xFE) |||
        getAt (numberToBinary (dataToHideOf text pw e).length 32) j) ∧
    (∀ j, j < 32 → getAt out j &&& 0xFE = getAt buf j &&& 0xFE) ∧
    headerValue out = (dataToHideOf text pw e).length := by
  obtain ⟨hcap, hout⟩ := hideData_ok_inv buf text pw e out h
  have h118 : 118 ≤ buf.length :=
    buf_length_ge_of_cap buf.length _ (length_dataToHideOf_ge text pw e) hcap
  have hdig := numberToBinary_digits_le_one (dataToHideOf text pw e).length 32
  subst hout
  have hpart1 : ∀ j, j < 32 →
      getAt (writePayloadFrom
        (writeHeader buf (numberToBinary (dataToHideOf text pw e).length 32))
        (textToBinary (dataToHideOf text pw e)) 0) j =
        (getAt buf j &&& 0xFE) |||
          getAt (numberToBinary (dataToHideOf text pw e).length 32) j :=
    fun j hj => getAt_embedded_lt32 buf _ _ j hj (by omega)
  refine ⟨hpart1, ?_, ?_⟩
  · intro j hj
    rw [hpart1 j hj,
      high_bits_after_write _ _ (getAt_le_one_of_forall _ hdig j)]
  · rw [headerValue_embedded buf _ _ (by omega) hdig]
    have hlen32 : (numberToBinary (dataToHideOf text pw e).length 32).length = 32 :=
      numberToBinary_length _ 32 hsize (by omega)
    have hmap := range_map_getAt (numberToBinary (dataToHideOf text pw e).length 32)
    rw [hlen32] at hmap
    rw [hmap, bitsToNat_numberToBinary]

/-- C5 witness: the header read back from the concrete embed of `"hello"`
into `buf240` equals the framed length 16. -/
theorem c5_header_fidelity_witness :
    headerValue embed240 = (dataToHideOf helloCodes [] idCipher).length :=
  (c5_header_fidelity buf240 helloCodes [] idCipher embed240 rfl (by decide)).2.2

/-- C6 (confirmed).  `extractData` fails with `NoHiddenData` precisely when
the decoded 32-bit header `L` satisfies `L = 0` or `4 * L > buf.length`
(that is, `L` exceeds the whole-pixel count `buf.length / 4`); otherwise
it proceeds to the bit-collection stage on `L * 8` bits. -/
theorem c6_noHiddenData_iff (buf pw : List Nat)
    (d : List Nat → List Nat → List Nat) :
    (extractData buf pw d = Except.error ExtractError.noHiddenData ↔
      (headerValue buf = 0 ∨ 4 * headerValue buf > buf.length)) ∧
    (¬(headerValue buf = 0 ∨ 4 * headerValue buf > buf.length) →
      extractData buf pw d =
        processExtracted (binaryToText (collectBits buf (headerValue buf * 8))) pw d) := by
  constructor
  · by_cases hc : headerValue buf = 0 ∨ 4 * headerValue buf > buf.length
    · rw [extractData]
      simp only [if_pos hc]
      simp [hc]
    · rw [extractData]
      simp only [if_neg hc]
      simp [hc, processExtracted_ne_noHiddenData]
  · intro hc
    rw [extractData]
    simp only [if_neg hc]

/-- C6 witness: an 8-byte all-zero buffer decodes header 0 and fails with
`NoHiddenData`. -/
theorem c6_noHiddenData_iff_witness :
    extractData (List.replicate 8 0) [] idCipher =
      Except.error ExtractError.noHiddenData :=
  (c6_noHiddenData_iff (List.replicate 8 0) [] idCipher).1.mpr (Or.inl (by decide))

/-- C7 (confirmed).  When the truncated text does not start with `ENC:` or
`TXT:` but a marker occurs (in full) within its first 20 characters,
`extractData` discards everything up to and including the 4-byte marker,
records the corresponding tag, and continues on the normal tagged path:
the encrypted branch (`decryptBranch`) for `ENC:`, or a successful resolve
of the remaining content for `TXT:` (the `ENC:` search takes precedence). -/
theorem c7_marker_recovery (ct pw : List Nat)
    (d : List Nat → List Nat → List Nat) (idx : Nat)
    (h1 : startsWith ct encTag = false) (h2 : startsWith ct txtTag = false) :
    (findSubFrom encTag ct 0 = some idx → idx + 4 ≤ 20 →
      processClean ct pw d = decryptBranch (ct.drop (idx + 4)) pw d) ∧
    (findSubFrom txtTag ct 0 = some idx → idx + 4 ≤ 20 →
      jsIncludes (ct.take 20) encTag = false →
      processClean ct pw d = Except.ok (ct.drop (idx + 4))) := by
  constructor
  · intro hf hb
    obtain ⟨-, hsw⟩ := findSubFrom_sound encTag ct 0 idx hf
    rw [Nat.sub_zero] at hsw
    have hinc : jsIncludes (ct.take 20) encTag = true :=
      jsIncludes_take_of_found ct encTag idx 20 hsw hb
    rw [processClean, if_neg (by simp [h1]), if_neg (by simp [h2]),
      if_pos hinc, idxOf, hf]
    rfl
  · intro hf hb h3
    obtain ⟨-, hsw⟩ := findSubFrom_sound txtTag ct 0 idx hf
    rw [Nat.sub_zero] at hsw
    have hinc : jsIncludes (ct.take 20) txtTag = true :=
      jsIncludes_take_of_found ct txtTag idx 20 hsw hb
    rw [processClean, if_neg (by simp [h1]), if_neg (by simp [h2]),
      if_neg (by simp [h3]), if_pos hinc, idxOf, hf]
    rfl

/-- C7 witness: a clean text with one stale byte before the `TXT:` marker
resolves to the content after the marker. -/
theorem c7_marker_recovery_witness :
    processClean (0 :: (txtTag ++ helloCodes)) [] idCipher =
      Except.ok ((0 :: (txtTag ++ helloCodes)).drop (1 + 4)) :=
  (c7_marker_recovery (0 :: (txtTag ++ helloCodes)) [] idCipher 1
    (by decide) (by decide)).2 (by decide) (by decide) (by decide)

/-- C8 (counterexample).  On `bufC8` the decoded text is twelve `'A'`
bytes: no tag is recognized anywhere and the printable run has length
12 > 10, so the claim demands a successful `Partial recovery:` resolve —
but because the text contains neither `<<EOF>>` nor any tag occurrence,
`extractData` throws the earlier missing-end-marker error
(`Data extraction failed: ...`) instead of reaching the printable-residue
fallback. -/
theorem c8_counterexample :
    jsIncludes (binaryToText (collectBits bufC8 (headerValue bufC8 * 8))) txtTag = false ∧
    jsIncludes (binaryToText (collectBits bufC8 (headerValue bufC8 * 8))) encTag = false ∧
    10 < ((binaryToText (collectBits bufC8 (headerValue bufC8 * 8))).filter
      fun c => decide (32 ≤ c) && decide (c ≤ 126)).length ∧
    extractData bufC8 [] idCipher = Except.error ExtractError.extractionFailed := by
  refine ⟨by decide, by decide, by decide, by decide⟩

/-- C8 (amended): when no tag is recognized in the truncated text, the
printable-residue fallback (`Partial recovery:` on a printable run longer
than 10, `DecodeAmbiguous` otherwise) applies only when the decoded text
contains `<<EOF>>` or some tag occurrence; when it contains neither,
`extractData` fails earlier with the missing-end-marker error
(`Data extraction failed: No valid data format or end marker found`). -/
theorem c8_amended_unknown_format (et pw : List Nat)
    (d : List Nat → List Nat → List Nat)
    (h1 : startsWith (cleanTextOf et) encTag = false)
    (h2 : startsWith (cleanTextOf et) txtTag = false)
    (h3 : jsIncludes ((cleanTextOf et).take 20) encTag = false)
    (h4 : jsIncludes ((cleanTextOf et).take 20) txtTag = false) :
    processExtracted et pw d =
      if jsIncludes et eofMark || jsIncludes et txtTag || jsIncludes et encTag then
        (if ((cleanTextOf et).filter fun c =>
              decide (32 ≤ c) && decide (c ≤ 126)).length > 10 then
          Except.ok (partialMark ++ (cleanTextOf et).filter fun c =>
            decide (32 ≤ c) && decide (c ≤ 126))
        else Except.error ExtractError.decodeAmbiguous)
      else Except.error ExtractError.extractionFailed := by
  rw [processExtracted_eq]
  split
  · rw [processClean, if_neg (by simp [h1]), if_neg (by simp [h2]),
      if_neg (by simp [h3]), if_neg (by simp [h4])]
  · rfl

/-- C8 witness: on the tagless, markerless printable text of twelve `'A'`
bytes the amended behavior is the missing-end-marker failure. -/
theorem c8_amended_unknown_format_witness :
    processExtracted (List.replicate 12 65) [] idCipher =
      Except.error ExtractError.extractionFailed := by
  have h := c8_amended_unknown_format (List.replicate 12 65) [] idCipher
    (by decide) (by decide) (by decide) (by decide)
  rw [h]
  rfl

/-- C9 (confirmed).  A successful embed never modifies any byte that the
extraction-time skip rule classifies as an alpha byte (index `j >= 32`
with `(j + 1) % 4 = 0`): every payload bit that is written lands on a
non-alpha byte, so those bytes — including their bit 0 — are returned
unchanged. -/
theorem c9_alpha_preservation (buf text pw : List Nat)
    (e : List Nat → List Nat → List Nat) (out : List Nat)
    (h : hideData buf text pw e = Except.ok out) :
    ∀ j, 32 ≤ j → (j + 1) % 4 = 0 → getAt out j = getAt buf j := by
  obtain ⟨hcap, hout⟩ := hideData_ok_inv buf text pw e out h
  subst hout
  intro j hj hmod
  exact getAt_embedded_untouched buf _ _ j hj (fun d _ he => by
    have hne := dataIndexOf_succ_mod d
    rw [he] at hne
    exact hne hmod)

/-- C9 witness: byte 35 (an alpha position) of the concrete embed of
`"hello"` into `buf240` is unchanged. -/
theorem c9_alpha_preservation_witness : getAt embed240 35 = getAt buf240 35 :=
  c9_alpha_preservation buf240 helloCodes [] idCipher embed240 rfl 35
    (by decide) (by decide)

/-- C10 (confirmed).  Every buffer write of `hideData` is in bounds when
the capacity check passes on a well-formed buffer (length a multiple
of 4): the framed container is always at least 11 bytes (4-byte tag plus
7-byte end marker), so the passing check forces `buf.length >= 120 > 32`,
covering the 32 unguarded header writes; and the payload loop never
writes at an out-of-range address because its write is guarded by
`dataIndex < buf.length` (an out-of-range iteration leaves the buffer
unchanged). -/
theorem c10_writes_in_bounds (buf text pw : List Nat)
    (e : List Nat → List Nat → List Nat) (h4 : 4 ∣ buf.length)
    (hcap : (dataToHideOf text pw e).length ≤ maxDataSize buf.length) :
    120 ≤ buf.length ∧ (∀ j, j < 32 → j < buf.length) ∧
    (∀ (l : List Nat) (i b : Nat), l.length ≤ dataIndexOf i →
      writeOne l i b = l) := by
  have h11 := length_dataToHideOf_ge text pw e
  have h118 := buf_length_ge_of_cap buf.length _ h11 hcap
  refine ⟨by omega, fun j hj => by omega, fun l i b hge => ?_⟩
  rw [writeOne_eq, if_neg (by omega)]

/-- C10 witness: the passing capacity check on the 240-byte buffer puts
all header indices in bounds. -/
theorem c10_writes_in_bounds_witness : 120 ≤ buf240.length :=
  (c10_writes_in_bounds buf240 helloCodes [] idCipher (by decide) (by decide)).1
